import Mathlib

/-!
Verification development for the devmaker job-runner.

The Rust sources (src/main.rs, src/common.rs, src/config.rs) are shallowly
embedded below.  Machine integers are modelled as `Nat`, `HashMap<String,
String>` as an association list with overwrite-on-insert (`EnvMap`), fallible
Rust functions returning `Result` as `Except String`, the process environment
and the interactive prompt as explicit parameters (`osEnv : String → Option
String`, and a list of pending prompt answers threaded through resolution).
-/

namespace Devmaker

/-- Model of Rust `HashMap<String, String>` (`EnvMap` in src/common.rs):
an association list.  `envInsert` overwrites the binding of an existing key,
as `HashMap::insert` does.  A real `HashMap` iterates in an unspecified
order; the model keeps insertion order. -/
abbrev EnvMap := List (String × String)

def envGet (m : EnvMap) (k : String) : Option String :=
  (m.find? (fun p => p.1 == k)).map (fun p => p.2)

def envContains (m : EnvMap) (k : String) : Bool :=
  (envGet m k).isSome

def envInsert (m : EnvMap) (k v : String) : EnvMap :=
  if envContains m k then m.map (fun p => if p.1 == k then (k, v) else p)
  else m ++ [(k, v)]

/-- src/common.rs: `SECURE_SUFFIX`. -/
def SECURE_SUFFIX : String := "_SECURE"

/-- src/common.rs: `DEPS_SCRIPT`. -/
def DEPS_SCRIPT : String := "deps.sh"

/-- Rust `str::replace(SECURE_SUFFIX, "")`: remove every non-overlapping
occurrence of the 7-character pattern `_SECURE`, scanning left to right.
The `Nat` argument is fuel; each step consumes at least one character, so
fuel = length of the list makes the `0` case unreachable. -/
def stripAux : Nat → List Char → List Char
  | _, [] => []
  | 0, s => s
  | fuel+1, c :: cs =>
    if SECURE_SUFFIX.toList.isPrefixOf (c :: cs) then stripAux fuel (cs.drop 6)
    else c :: stripAux fuel cs

/-- `name.replace(SECURE_SUFFIX, "")` from src/common.rs line 13. -/
def rustRemoveSecure (s : String) : String :=
  ⟨stripAux s.toList.length s.toList⟩

/-- src/common.rs `secure_name_check`: returns the name with the secure
marker handled, and whether the name ended with the secure suffix.  Note the
source uses `replace`, which removes all occurrences, not just the trailing
one. -/
def secure_name_check (name : String) : String × Bool :=
  let has := SECURE_SUFFIX.toList.isSuffixOf name.toList
  (if has then rustRemoveSecure name else name, has)

/-- src/main.rs `encode_key`: `key.to_uppercase().replace("-", "_")
.replace(" ", "_")`.  Single-character replacement is a character map;
`to_uppercase` is modelled per character (ASCII), which agrees with Rust on
the ASCII keys used throughout. -/
def encode_key (key : String) : String :=
  ⟨key.toList.map (fun c =>
    let u := c.toUpper
    if u == '-' || u == ' ' then '_' else u)⟩

/-- src/config.rs `Config`. -/
structure Config where
  ask_file_vars : Option EnvMap
  cmd_vars : Option EnvMap
  root_dir : String
  single_job : Option String
  allow_env : Bool
  dry_run : Bool
  empty_vars : Bool
  interactive : Bool

/-- src/config.rs `Config::get_cmd_var` (via `opt_map_helper`, which strips
the secure suffix again before the lookup). -/
def get_cmd_var (cfg : Config) (name : String) : Option String :=
  cfg.cmd_vars.bind (fun m => envGet m (secure_name_check name).1)

/-- src/config.rs `Config::get_file_var` (via `opt_map_helper`). -/
def get_file_var (cfg : Config) (name : String) : Option String :=
  cfg.ask_file_vars.bind (fun m => envGet m (secure_name_check name).1)

/-- src/main.rs `try_empty_var`. -/
def try_empty_var (cfg : Config) : Option String :=
  if cfg.empty_vars then some "" else none

/-- src/main.rs `try_var_from_env`: reads the host environment (modelled as
`osEnv`) under the name stripped once more by `secure_name_check`. -/
def try_var_from_env (raw : String) (cfg : Config)
    (osEnv : String → Option String) : Option String :=
  if cfg.allow_env then osEnv (secure_name_check raw).1 else none

/-- src/main.rs `try_var_from_cmd`. -/
def try_var_from_cmd (name : String) (cfg : Config) : Option String :=
  get_cmd_var cfg name

/-- src/main.rs `try_var_from_askfile`. -/
def try_var_from_askfile (name : String) (cfg : Config) : Option String :=
  get_file_var cfg name

/-- src/main.rs `try_ask_user_for_var`: returns `None` unless interactive;
otherwise consumes the next pending operator answer (dialoguer's `interact`
returning `Err`, e.g. at end of input, becomes `None` via `.ok()`).  The
name and secure flag shape only the prompt text (and masking), which has no
observable effect here beyond consuming an answer. -/
def try_ask_user_for_var (_name : String) (cfg : Config) (_secure : Bool)
    (inputs : List String) : Option String × List String :=
  if cfg.interactive then
    match inputs with
    | [] => (none, [])
    | i :: rest => (some i, rest)
  else (none, inputs)

/-- src/main.rs `query_single_var`: the five-source fallback chain, first
supplied value wins; `or_else` is lazy, so a later source is consulted only
when every earlier one returned `None`. -/
def query_single_var (name : String) (cfg : Config)
    (osEnv : String → Option String) (inputs : List String) :
    Except String (String × String) × List String :=
  let rn := (secure_name_check name).1
  let is_secure := (secure_name_check name).2
  match try_empty_var cfg with
  | some v => (.ok (rn, v), inputs)
  | none =>
    match try_var_from_env rn cfg osEnv with
    | some v => (.ok (rn, v), inputs)
    | none =>
      match try_var_from_cmd rn cfg with
      | some v => (.ok (rn, v), inputs)
      | none =>
        match try_var_from_askfile rn cfg with
        | some v => (.ok (rn, v), inputs)
        | none =>
          match try_ask_user_for_var rn cfg is_secure inputs with
          | (some v, rest) => (.ok (rn, v), rest)
          | (none, rest) => (.error ("Cound not resolve var: " ++ rn), rest)

/-- src/main.rs `JobSpec`. -/
structure JobSpec where
  name : String
  provided_env : EnvMap
  depends : List String
  ask_for_vars : List String
  has_deps_script : Bool

/-- src/main.rs `ReadyJob`. -/
structure ReadyJob where
  name : String
  env : EnvMap
  depends : List String
  has_deps_script : Bool

/-- The loop of src/main.rs `query_vars`: for each asked name in order, skip
it when `new_env` already contains the raw name as a key, otherwise resolve
it and insert the resolved (stripped) key.  The pending prompt answers are
threaded through. -/
def query_vars_go (cfg : Config) (osEnv : String → Option String) :
    List String → EnvMap → List String → Except String EnvMap × List String
  | [], acc, inputs => (.ok acc, inputs)
  | n :: ns, acc, inputs =>
    if envContains acc n then query_vars_go cfg osEnv ns acc inputs
    else
      match query_single_var n cfg osEnv inputs with
      | (.ok (k, v), rest) => query_vars_go cfg osEnv ns (envInsert acc k v) rest
      | (.error e, rest) => (.error e, rest)

/-- src/main.rs `query_vars`: flat-map all jobs' asked names, then run the
memoizing loop over an initially empty map. -/
def query_vars (specs : List JobSpec) (cfg : Config)
    (osEnv : String → Option String) (inputs : List String) :
    Except String EnvMap × List String :=
  query_vars_go cfg osEnv ((specs.map (fun s => s.ask_for_vars)).flatten) [] inputs

/-- The first loop of src/main.rs `fill_asked_vars`: look each asked name up
(stripped) in the answers and build the job map; an absent answer is an
error. -/
def fill_asked_go (answers : EnvMap) : List String → EnvMap → Except String EnvMap
  | [], acc => .ok acc
  | raw :: rest, acc =>
    match envGet answers (secure_name_check raw).1 with
    | some v => fill_asked_go answers rest (envInsert acc (secure_name_check raw).1 v)
    | none => .error ("Unresolvable variable: " ++ (secure_name_check raw).1)

/-- src/main.rs `fill_asked_vars`: resolved ask variables first, then the
job's own `provided_env` drained into the same map under `encode_key`-
normalized keys (overwriting on collision). -/
def fill_asked_vars (spec : JobSpec) (answers : EnvMap) : Except String ReadyJob :=
  match fill_asked_go answers spec.ask_for_vars [] with
  | .error e => .error e
  | .ok m =>
    .ok ⟨spec.name,
         spec.provided_env.foldl (fun acc p => envInsert acc (encode_key p.1) p.2) m,
         spec.depends, spec.has_deps_script⟩

/-- Names of the already-scheduled jobs.  The Rust code keeps a `HashSet`
`scheduled_names` updated in lock-step with `scheduled` by the `schedule!`
macro, so the set always holds exactly the names of the scheduled jobs;
only membership is ever consulted. -/
def namesOf (l : List ReadyJob) : List String := l.map (fun j => j.name)

/-- One scan of the `while` loop body in src/main.rs `schedule_specs`
(lines 393–405), returning only the newly appended jobs: a job already named
in `names` is skipped; a job whose every dependency is in `names` is
appended, and its name becomes visible to the jobs scanned after it (the
Rust loop inserts into `scheduled_names` immediately). -/
def scanNew (scan : List ReadyJob) (names : List String) : List ReadyJob :=
  match scan with
  | [] => []
  | j :: rest =>
    if names.contains j.name then scanNew rest names
    else if j.depends.all (fun d => names.contains d) then
      j :: scanNew rest (names ++ [j.name])
    else scanNew rest names

/-- src/main.rs `cycle_error`: list every job whose name was never
scheduled, in input order. -/
def cycle_error (scheduled_names : List String) (all : List ReadyJob) : String :=
  "Unschedulable jobs: " ++
    String.intercalate ", "
      ((all.filter (fun j => !(scheduled_names.contains j.name))).map (fun j => j.name))

/-- The `while` loop of src/main.rs `schedule_specs`: while fewer jobs are
scheduled than exist, run a scan; if the scan added nothing the remaining
jobs are unschedulable, otherwise go round again.  Terminates because every
non-final scan strictly grows `scheduled`. -/
def schedLoop (jobs : List ReadyJob) (scheduled : List ReadyJob) :
    Except String (List ReadyJob) :=
  if h1 : scheduled.length < jobs.length then
    let added := scanNew jobs (namesOf scheduled)
    if h2 : added.isEmpty then .error (cycle_error (namesOf scheduled) jobs)
    else schedLoop jobs (scheduled ++ added)
  else .ok scheduled
termination_by jobs.length - scheduled.length
decreasing_by
  have hpos : 0 < added.length := by
    cases hadd : added with
    | nil => rw [hadd] at h2; simp at h2
    | cons a t => simp
  show jobs.length - (scheduled ++ added).length < jobs.length - scheduled.length
  simp only [List.length_append]
  omega

/-- The same fixed-point expansion as `schedLoop`, but returning the final
scheduled list instead of an error when a scan adds nothing: the set of jobs
the expansion ever schedules.  `schedLoop` reports exactly the jobs outside
this list. -/
def schedFix (jobs : List ReadyJob) (scheduled : List ReadyJob) : List ReadyJob :=
  if h1 : scheduled.length < jobs.length then
    let added := scanNew jobs (namesOf scheduled)
    if h2 : added.isEmpty then scheduled
    else schedFix jobs (scheduled ++ added)
  else scheduled
termination_by jobs.length - scheduled.length
decreasing_by
  have hpos : 0 < added.length := by
    cases hadd : added with
    | nil => rw [hadd] at h2; simp at h2
    | cons a t => simp
  show jobs.length - (scheduled ++ added).length < jobs.length - scheduled.length
  simp only [List.length_append]
  omega

/-- src/main.rs `schedule_specs`: seed the schedule with every job whose
dependency list is empty, in input order (the first `for` loop, lines
384–388), then run the fixed-point loop. -/
def schedule_specs (jobs : List ReadyJob) : Except String (List ReadyJob) :=
  schedLoop jobs (jobs.filter (fun j => j.depends.isEmpty))

/-- Rust `format!("{:03}", n)`: decimal digits, left-padded with zeros to
width 3. -/
def fmt3 (n : Nat) : String :=
  let s := toString n
  if s.length < 3 then ⟨List.replicate (3 - s.length) '0'⟩ ++ s else s

/-- src/main.rs `ReadyJob::report`.  `console::Style` rendering depends on
the terminal, so the two styles are abstract string transformers
(`job_style` and `info_style` in the source); the unstyled skeleton,
including the job-number label, is fixed. -/
def report (job : ReadyJob) (job_num : Nat)
    (jobStyleF infoStyleF : String → String) : String :=
  "Would run job " ++ fmt3 job_num ++ ": " ++ jobStyleF job.name
  ++ String.join (job.depends.map (fun d =>
       "\n" ++ infoStyleF "  Depends on: " ++ infoStyleF d))
  ++ (if job.has_deps_script then "\n" ++ infoStyleF "  Deps.sh: yes" else "")
  ++ String.join (job.env.map (fun p =>
       "\n" ++ infoStyleF "  Env: " ++ infoStyleF p.1 ++ infoStyleF " -> "
       ++ infoStyleF p.2))

/-- src/main.rs `report_jobs`: one printed line per scheduled job, labelled
with its `enumerate()` position. -/
def report_jobs (jobs : List ReadyJob) (jobStyleF infoStyleF : String → String) :
    List String :=
  jobs.enum.map (fun p => report p.2 p.1 jobStyleF infoStyleF)

/-- src/main.rs `ensure_executable`, on the permission mode of the file:
`is_executable` is true when any of the execute bits `0o111` is set; when it
is not, the new mode is the old mode OR-ed with the decimal literal `100`
(which is octal `0o144`).  Filesystem errors are out of the model. -/
def ensure_executable_mode (mode : Nat) : Nat :=
  if mode &&& 0o111 ≠ 0 then mode else mode ||| 100

/-- A file name matching the glob pattern `run.*`: the literal prefix
`run.` followed by anything (`*` matches any sequence, including the empty
one, within one path component). -/
def matchesRunStar (f : String) : Bool :=
  "run.".toList.isPrefixOf f.toList

/-- src/main.rs `ReadyJob::find_runner`, over the job directory's listing
(file names in the order glob enumerates them): prefer the exact `run.sh`,
else the first `run.*` match, else the "No runner found" error. -/
def find_runner (dirFiles : List String) : Except String String :=
  if dirFiles.contains "run.sh" then .ok "run.sh"
  else
    match (dirFiles.filter matchesRunStar).head? with
    | some f => .ok f
    | none => .error "No runner found"

/-- src/main.rs `ReadyJob::create_proc_env`: the job env re-encoded through
`encode_key`, then the four always-present keys.  The home directory lookup
can fail; the temp-dir keys are added per process invocation and are not
modelled (the directory path is fresh per call). -/
def create_proc_env (job : ReadyJob) (root : String)
    (homeDir : Option String) (username : String) : Except String EnvMap :=
  match homeDir with
  | none => .error "Cannot find home dir"
  | some h =>
    let m := job.env.foldl (fun acc p => envInsert acc (encode_key p.1) p.2) []
    let m := envInsert m "HOME" h
    let m := envInsert m "USER" username
    let m := envInsert m "USERNAME" username
    let m := envInsert m "SCRIPT_DIR" (root ++ "/" ++ job.name)
    .ok m

/-- src/main.rs `ReadyJob::run_process`, with the child process's exit
abstracted as `procStatus runnable` (`some code`, or `none` when killed by a
signal): success exactly on exit code 0, otherwise the "failed with exit
code" error naming the job (code `-1` when unavailable). -/
def run_process (job : ReadyJob) (runnable : String)
    (procStatus : String → Option Int) : Except String Unit :=
  match procStatus runnable with
  | some 0 => .ok ()
  | some c => .error ("Job '" ++ job.name ++ "' failed with exit code " ++ toString c)
  | none => .error ("Job '" ++ job.name ++ "' failed with exit code " ++ toString (-1 : Int))

/-- src/main.rs `ReadyJob::run`: build the process environment, run the
deps script when present, then locate and run the main runnable.
`dirFiles` lists each job directory's files. -/
def runJob (job : ReadyJob) (root : String) (homeDir : Option String)
    (username : String) (dirFiles : String → List String)
    (procStatus : String → Option Int) : Except String Unit :=
  match create_proc_env job root homeDir username with
  | .error e => .error e
  | .ok _ =>
    let afterDeps : Except String Unit :=
      if job.has_deps_script then
        run_process job (root ++ "/" ++ job.name ++ "/" ++ DEPS_SCRIPT) procStatus
      else .ok ()
    match afterDeps with
    | .error e => .error e
    | .ok _ =>
      match find_runner (dirFiles job.name) with
      | .error e => .error e
      | .ok runner => run_process job (root ++ "/" ++ job.name ++ "/" ++ runner) procStatus

/-- The `queue.iter().try_for_each(|job| job.run(&root))` branch of
src/main.rs `run_all_jobs`: run the scheduled jobs in order, stopping at the
first failure.  Also returns the names of the jobs whose `run` was invoked,
in order, so that "no later job runs" is a statement of the model. -/
def run_queue (root : String) (homeDir : Option String) (username : String)
    (dirFiles : String → List String) (procStatus : String → Option Int) :
    List ReadyJob → List String → List String × Except String Unit
  | [], tr => (tr, .ok ())
  | j :: rest, tr =>
    match runJob j root homeDir username dirFiles procStatus with
    | .ok _ => run_queue root homeDir username dirFiles procStatus rest (tr ++ [j.name])
    | .error e => (tr ++ [j.name], .error e)

/-- Dependencies-before-dependents: every dependency name of the job at
position `i` of the schedule is the name of a job at some earlier position. -/
def schedOrderOK (l : List ReadyJob) : Prop :=
  ∀ (i : Nat) (h : i < l.length), ∀ d ∈ (l.get ⟨i, h⟩).depends, d ∈ namesOf (l.take i)

/-- Whether `needle` occurs as a substring of `hay` (used to state that an
error message does or does not mention a job name). -/
def strContainsSub (hay needle : String) : Bool :=
  (List.range (hay.toList.length + 1)).any (fun i => needle.toList.isPrefixOf (hay.toList.drop i))

/-- A run configuration with only the interactive prompt enabled as a source. -/
def cfgInteractive : Config := ⟨none, none, "/r", none, false, false, false, true⟩

/-- A run configuration with force-empty-vars enabled. -/
def cfgForceEmpty : Config := ⟨none, none, "/r", none, true, false, true, false⟩

def askSecureA : JobSpec := ⟨"a", [], [], ["TOKEN_SECURE"], false⟩

def askSecureB : JobSpec := ⟨"b", [], [], ["TOKEN_SECURE"], false⟩

def askPlainA : JobSpec := ⟨"a", [], [], ["TOKEN"], false⟩

def askPlainB : JobSpec := ⟨"b", [], [], ["TOKEN"], false⟩

def demoJob : ReadyJob := ⟨"base", [], [], false⟩

def cSpec7 : JobSpec := ⟨"j", [("token", "x")], [], [], false⟩

def cJob7 : ReadyJob := ⟨"j", [("TOKEN", "x")], [], false⟩

def cSpec10 : JobSpec := ⟨"j", [("token", "literal")], [], ["TOKEN"], false⟩

def cAns10 : EnvMap := [("TOKEN", "resolved")]

def cJob10 : ReadyJob := ⟨"j", [("TOKEN", "literal")], [], false⟩

def demoBase : ReadyJob := ⟨"base", [], [], false⟩

def demoMid : ReadyJob := ⟨"mid", [], ["base"], false⟩

def demoTop : ReadyJob := ⟨"top", [], ["mid"], false⟩

def demoRank : String → Nat := fun n => if n = "base" then 0 else if n = "mid" then 1 else 2

def cycA : ReadyJob := ⟨"A", [], ["B"], false⟩

def cycB : ReadyJob := ⟨"B", [], ["A"], false⟩

def ghostJob : ReadyJob := ⟨"C", [], ["D"], false⟩

def jAlpha : ReadyJob := ⟨"alpha", [], [], false⟩

def jBeta : ReadyJob := ⟨"beta", [], [], false⟩

def jGamma : ReadyJob := ⟨"gamma", [], [], false⟩

def fsC8 : String → List String := fun n =>
  if n = "alpha" then ["run.sh"] else if n = "gamma" then ["run.sh"] else []

lemma envGet_envInsert_self (m : EnvMap) (k v : String) :
    envGet (envInsert m k v) k = some v := by
  unfold envInsert
  by_cases hc : envContains m k
  · rw [if_pos hc]
    unfold envContains envGet at hc
    unfold envGet
    rw [List.find?_map]
    have hcomp : ((fun p : String × String => p.1 == k) ∘
        fun p => if p.1 == k then (k, v) else p) = fun p : String × String => p.1 == k := by
      funext p
      by_cases h : p.1 = k <;> simp [h]
    rw [hcomp]
    cases hp : List.find? (fun p => p.1 == k) m with
    | none => rw [hp] at hc; simp at hc
    | some p =>
      have hpk := List.find?_some hp
      simp at hpk
      simp [Option.map, hpk]
  · rw [if_neg hc]
    unfold envContains envGet at hc
    unfold envGet
    rw [List.find?_append]
    have : List.find? (fun p => p.1 == k) m = none := by
      by_contra hne
      rcases Option.ne_none_iff_exists.mp hne with ⟨p, hp⟩
      exact hc (by simp [← hp])
    simp [this, List.find?]

lemma envGet_envInsert_ne (m : EnvMap) (k v k' : String) (h : k' ≠ k) :
    envGet (envInsert m k v) k' = envGet m k' := by
  unfold envInsert
  by_cases hc : envContains m k
  · rw [if_pos hc]
    unfold envGet
    rw [List.find?_map]
    have hcomp : ((fun p : String × String => p.1 == k') ∘
        fun p => if p.1 == k then (k, v) else p) = fun p : String × String => p.1 == k' := by
      funext p
      by_cases hp : p.1 = k
      · simp [hp, Ne.symm h]
      · simp [hp]
    rw [hcomp]
    cases hfm : List.find? (fun p => p.1 == k') m with
    | none => simp
    | some p =>
      have hpk := List.find?_some hfm
      simp at hpk
      have : ¬ (p.1 = k) := by rw [hpk]; exact h
      simp [this]
  · rw [if_neg hc]
    unfold envGet
    rw [List.find?_append]
    cases hfm : List.find? (fun p => p.1 == k') m with
    | some p => simp
    | none =>
      have hkk : (k == k') = false := by
        simp
        exact fun hh => h hh.symm
      simp [List.find?, hkk]

lemma envContains_envInsert (m : EnvMap) (k v k' : String) :
    envContains (envInsert m k v) k' = (k' == k || envContains m k') := by
  by_cases h : k' = k
  · subst h
    simp [envContains, envGet_envInsert_self]
  · simp [envContains, envGet_envInsert_ne m k v k' h, h]

lemma envGet_foldl_encode_of_absent (l m : EnvMap) (K : String)
    (h : ∀ p ∈ l, encode_key p.1 ≠ K) :
    envGet (l.foldl (fun acc p => envInsert acc (encode_key p.1) p.2) m) K = envGet m K := by
  induction l generalizing m with
  | nil => simp
  | cons q rest ih =>
    simp only [List.foldl_cons]
    rw [ih (envInsert m (encode_key q.1) q.2) (fun p hp => h p (List.mem_cons_of_mem q hp))]
    exact envGet_envInsert_ne m (encode_key q.1) q.2 K
      (fun hk => h q (List.mem_cons_self q rest) hk.symm)

lemma envGet_foldl_encode_of_unique (l : EnvMap) (p : String × String)
    (hp : p ∈ l) (hu : ∀ q ∈ l, encode_key q.1 = encode_key p.1 → q = p) :
    ∀ m, envGet (l.foldl (fun acc p => envInsert acc (encode_key p.1) p.2) m)
      (encode_key p.1) = some p.2 := by
  induction l with
  | nil => cases hp
  | cons q rest ih =>
    intro m
    simp only [List.foldl_cons]
    by_cases hmem : p ∈ rest
    · exact ih hmem (fun r hr he => hu r (List.mem_cons_of_mem q hr) he) _
    · have hqp : q = p := by
        rcases List.mem_cons.mp hp with h | h
        · exact h.symm
        · exact absurd h hmem
      subst hqp
      rw [envGet_foldl_encode_of_absent]
      · exact envGet_envInsert_self m (encode_key q.1) q.2
      · intro r hr he
        exact hmem (by rw [← hu r (List.mem_cons_of_mem q hr) he]; exact hr)

lemma envContains_foldl_encode_mono (l : EnvMap) (K : String) :
    ∀ m, envContains m K = true →
    envContains (l.foldl (fun acc p => envInsert acc (encode_key p.1) p.2) m) K = true := by
  induction l with
  | nil => intro m h; simpa using h
  | cons q rest ih =>
    intro m h
    simp only [List.foldl_cons]
    exact ih _ (by rw [envContains_envInsert]; simp [h])

lemma envContains_foldl_encode_mem (l : EnvMap) (p : String × String) (hp : p ∈ l) :
    ∀ m, envContains (l.foldl (fun acc p => envInsert acc (encode_key p.1) p.2) m)
      (encode_key p.1) = true := by
  induction l with
  | nil => cases hp
  | cons q rest ih =>
    intro m
    simp only [List.foldl_cons]
    rcases List.mem_cons.mp hp with h | h
    · subst h
      exact envContains_foldl_encode_mono rest _ _
        (by rw [envContains_envInsert]; simp)
    · exact ih h _

lemma strPrefix_append (a b : String) : a.toList.isPrefixOf (a ++ b).toList = true := by
  rw [List.isPrefixOf_iff_prefix]
  show a.data <+: (a ++ b).data
  rw [String.data_append]
  exact List.prefix_append _ _

lemma take_append_le {α : Type} (l1 l2 : List α) (i : Nat) (h : i ≤ l1.length) :
    (l1 ++ l2).take i = l1.take i := by
  induction l1 generalizing i with
  | nil =>
    have : i = 0 := Nat.le_zero.mp h
    simp [this]
  | cons a rest ih =>
    cases i with
    | zero => simp
    | succ k =>
      simp only [List.cons_append, List.take_succ_cons]
      rw [ih k (by simpa using h)]

lemma list_exists_min_image {α : Type} (l : List α) (f : α → Nat) (h : l ≠ []) :
    ∃ a ∈ l, ∀ b ∈ l, f a ≤ f b := by
  induction l with
  | nil => exact absurd rfl h
  | cons a rest ih =>
    by_cases hr : rest = []
    · subst hr
      refine ⟨a, List.mem_cons_self a _, ?_⟩
      intro b hb
      rcases List.mem_cons.mp hb with rfl | hb
      · exact Nat.le_refl _
      · cases hb
    · rcases ih hr with ⟨m, hm, hmin⟩
      by_cases hle : f a ≤ f m
      · refine ⟨a, List.mem_cons_self a _, ?_⟩
        intro b hb
        rcases List.mem_cons.mp hb with rfl | hb
        · exact Nat.le_refl _
        · exact Nat.le_trans hle (hmin b hb)
      · refine ⟨m, List.mem_cons_of_mem a hm, ?_⟩
        intro b hb
        rcases List.mem_cons.mp hb with rfl | hb
        · exact Nat.le_of_lt (Nat.lt_of_not_le hle)
        · exact hmin b hb

lemma schedOrderOK_append_one (l : List ReadyJob) (j : ReadyJob)
    (hl : schedOrderOK l) (hd : ∀ d ∈ j.depends, d ∈ namesOf l) :
    schedOrderOK (l ++ [j]) := by
  intro i h d hdi
  have hlen : (l ++ [j]).length = l.length + 1 := by simp
  by_cases hi : i < l.length
  · have hget : (l ++ [j]).get ⟨i, h⟩ = l.get ⟨i, hi⟩ := by
      simp [List.get_eq_getElem, List.getElem_append_left hi]
    rw [take_append_le l [j] i (Nat.le_of_lt hi)]
    exact hl i hi d (by rw [← hget]; exact hdi)
  · have hieq : i = l.length := by omega
    have hget : (l ++ [j]).get ⟨i, h⟩ = j := by
      simp [List.get_eq_getElem]
      rw [List.getElem_concat_length l j i hieq]
    rw [hieq, List.take_left]
    exact hd d (by rw [← hget]; exact hdi)

lemma scanNew_mem (scan : List ReadyJob) :
    ∀ names j, j ∈ scanNew scan names → j ∈ scan := by
  induction scan with
  | nil => intro names j h; simp [scanNew] at h
  | cons a rest ih =>
    intro names j h
    unfold scanNew at h
    by_cases h1 : names.contains a.name
    · rw [if_pos h1] at h
      exact List.mem_cons_of_mem a (ih names j h)
    · rw [if_neg h1] at h
      by_cases h2 : a.depends.all (fun d => names.contains d)
      · rw [if_pos h2] at h
        rcases List.mem_cons.mp h with h | h
        · exact h ▸ List.mem_cons_self a rest
        · exact List.mem_cons_of_mem a (ih _ j h)
      · rw [if_neg h2] at h
        exact List.mem_cons_of_mem a (ih names j h)

lemma scanNew_names_nodup (scan : List ReadyJob) :
    ∀ names, names.Nodup → (names ++ (scanNew scan names).map (fun j => j.name)).Nodup := by
  induction scan with
  | nil => intro names h; simpa [scanNew] using h
  | cons a rest ih =>
    intro names h
    unfold scanNew
    by_cases h1 : names.contains a.name
    · rw [if_pos h1]
      exact ih names h
    · rw [if_neg h1]
      by_cases h2 : a.depends.all (fun d => names.contains d)
      · rw [if_pos h2]
        have hnotin : a.name ∉ names := by
          intro hmem
          exact h1 (by simpa [List.elem_iff] using hmem)
        have hnd : (names ++ [a.name]).Nodup := by
          rw [List.nodup_append]
          refine ⟨h, List.nodup_singleton _, ?_⟩
          intro x hx hy
          rcases List.mem_singleton.mp hy with rfl
          exact hnotin hx
        have := ih (names ++ [a.name]) hnd
        simp only [List.map_cons]
        rw [List.append_cons]
        exact this
      · rw [if_neg h2]
        exact ih names h

lemma scanNew_topo (scan : List ReadyJob) :
    ∀ sched, schedOrderOK sched →
    schedOrderOK (sched ++ scanNew scan (namesOf sched)) := by
  induction scan with
  | nil => intro sched h; simpa [scanNew] using h
  | cons a rest ih =>
    intro sched h
    unfold scanNew
    by_cases h1 : (namesOf sched).contains a.name
    · rw [if_pos h1]
      exact ih sched h
    · rw [if_neg h1]
      by_cases h2 : a.depends.all (fun d => (namesOf sched).contains d)
      · rw [if_pos h2]
        have hdeps : ∀ d ∈ a.depends, d ∈ namesOf sched := by
          intro d hd
          have := (List.all_eq_true.mp h2) d hd
          simpa [List.elem_iff] using this
        have hone : schedOrderOK (sched ++ [a]) := schedOrderOK_append_one sched a h hdeps
        have hnames : namesOf sched ++ [a.name] = namesOf (sched ++ [a]) := by
          simp [namesOf]
        rw [hnames, List.append_cons]
        exact ih (sched ++ [a]) hone
      · rw [if_neg h2]
        exact ih sched h

lemma scanNew_ne_nil_of_ready (scan : List ReadyJob) :
    ∀ names, (∃ j ∈ scan, names.contains j.name = false
        ∧ j.depends.all (fun d => names.contains d) = true) →
    scanNew scan names ≠ [] := by
  induction scan with
  | nil =>
    intro names h
    rcases h with ⟨j, hj, _⟩
    cases hj
  | cons a rest ih =>
    intro names h
    rcases h with ⟨j, hj, hfresh, hready⟩
    unfold scanNew
    by_cases h1 : names.contains a.name
    · rw [if_pos h1]
      rcases List.mem_cons.mp hj with rfl | hj'
      · rw [hfresh] at h1
        cases h1
      · exact ih names ⟨j, hj', hfresh, hready⟩
    · rw [if_neg h1]
      by_cases h2 : a.depends.all (fun d => names.contains d)
      · rw [if_pos h2]
        exact List.cons_ne_nil _ _
      · rw [if_neg h2]
        rcases List.mem_cons.mp hj with rfl | hj'
        · exact absurd hready h2
        · exact ih names ⟨j, hj', hfresh, hready⟩

lemma exists_ready (jobs : List ReadyJob) (rank : String → Nat)
    (hn : (jobs.map (fun j => j.name)).Nodup)
    (hd : ∀ j ∈ jobs, ∀ d ∈ j.depends, d ∈ jobs.map (fun j => j.name))
    (ha : ∀ j ∈ jobs, ∀ d ∈ j.depends, rank d < rank j.name)
    (sched : List ReadyJob)
    (hmem : ∀ j ∈ sched, j ∈ jobs)
    (hnd : (namesOf sched).Nodup)
    (hlen : sched.length < jobs.length) :
    ∃ j ∈ jobs, (namesOf sched).contains j.name = false
      ∧ j.depends.all (fun d => (namesOf sched).contains d) = true := by
  have hUne : jobs.filter (fun j => !((namesOf sched).contains j.name)) ≠ [] := by
    intro hUnil
    have hsub : (jobs.map (fun j => j.name)) ⊆ namesOf sched := by
      intro x hx
      rcases List.mem_map.mp hx with ⟨j, hj, rfl⟩
      by_contra hnot
      have hjU : j ∈ jobs.filter (fun j => !((namesOf sched).contains j.name)) := by
        refine List.mem_filter.mpr ⟨hj, ?_⟩
        simp only [Bool.not_eq_true', Bool.not_eq_true]
        rw [← Bool.not_eq_true]
        intro hc
        exact hnot (by simpa [List.elem_iff] using hc)
      rw [hUnil] at hjU
      cases hjU
    have hsublen := (List.Nodup.subperm hn hsub).length_le
    have h1 : (jobs.map (fun j => j.name)).length = jobs.length := by simp
    have h2 : (namesOf sched).length = sched.length := by simp [namesOf]
    omega
  rcases list_exists_min_image _ (fun j => rank j.name) hUne with ⟨u, huU, humin⟩
  have huJobs : u ∈ jobs := List.mem_of_mem_filter huU
  have huFresh : (namesOf sched).contains u.name = false := by
    have := List.of_mem_filter huU
    simpa using this
  refine ⟨u, huJobs, huFresh, ?_⟩
  rw [List.all_eq_true]
  intro d hd'
  by_contra hnc
  have hcd : (namesOf sched).contains d = false := by
    rw [← Bool.not_eq_true]
    exact hnc
  have hdn : d ∈ jobs.map (fun j => j.name) := hd u huJobs d hd'
  rcases List.mem_map.mp hdn with ⟨jd, hjd, hjdname⟩
  have hjdU : jd ∈ jobs.filter (fun j => !((namesOf sched).contains j.name)) := by
    refine List.mem_filter.mpr ⟨hjd, ?_⟩
    rw [hjdname, hcd]
    rfl
  have hmin := humin jd hjdU
  have hlt := ha u huJobs d hd'
  rw [hjdname] at hmin
  omega

lemma schedLoop_ok_of_acyclic (jobs : List ReadyJob) (rank : String → Nat)
    (hn : (jobs.map (fun j => j.name)).Nodup)
    (hd : ∀ j ∈ jobs, ∀ d ∈ j.depends, d ∈ jobs.map (fun j => j.name))
    (ha : ∀ j ∈ jobs, ∀ d ∈ j.depends, rank d < rank j.name) :
    ∀ (n : Nat) (sched : List ReadyJob),
      jobs.length - sched.length ≤ n →
      (∀ j ∈ sched, j ∈ jobs) →
      (namesOf sched).Nodup →
      schedOrderOK sched →
      ∃ out, schedLoop jobs sched = .ok out
        ∧ (∀ j ∈ out, j ∈ jobs)
        ∧ (namesOf out).Nodup
        ∧ schedOrderOK out
        ∧ jobs.length ≤ out.length
        ∧ ∃ t, out = sched ++ t := by
  intro n
  induction n with
  | zero =>
    intro sched hle hmem hnd htopo
    have h1 : ¬ sched.length < jobs.length := by omega
    refine ⟨sched, ?_, hmem, hnd, htopo, by omega, [], by simp⟩
    rw [schedLoop]
    exact dif_neg h1
  | succ n ih =>
    intro sched hle hmem hnd htopo
    by_cases h1 : sched.length < jobs.length
    · have hready := exists_ready jobs rank hn hd ha sched hmem hnd h1
      have hne : scanNew jobs (namesOf sched) ≠ [] :=
        scanNew_ne_nil_of_ready jobs (namesOf sched) hready
      have hpos : 0 < (scanNew jobs (namesOf sched)).length := List.length_pos.mpr hne
      have hstep : schedLoop jobs sched
          = schedLoop jobs (sched ++ scanNew jobs (namesOf sched)) := by
        conv_lhs => rw [schedLoop]
        rw [dif_pos h1]
        show (if _h2 : (scanNew jobs (namesOf sched)).isEmpty = true
              then Except.error (cycle_error (namesOf sched) jobs)
              else schedLoop jobs (sched ++ scanNew jobs (namesOf sched))) = _
        rw [dif_neg (fun hh => hne (by simpa using hh))]
      have hmem' : ∀ j ∈ sched ++ scanNew jobs (namesOf sched), j ∈ jobs := by
        intro j hj
        rcases List.mem_append.mp hj with hj | hj
        · exact hmem j hj
        · exact scanNew_mem jobs (namesOf sched) j hj
      have hnd' : (namesOf (sched ++ scanNew jobs (namesOf sched))).Nodup := by
        have := scanNew_names_nodup jobs (namesOf sched) hnd
        simpa [namesOf] using this
      have htopo' : schedOrderOK (sched ++ scanNew jobs (namesOf sched)) :=
        scanNew_topo jobs sched htopo
      have hle' : jobs.length - (sched ++ scanNew jobs (namesOf sched)).length ≤ n := by
        simp only [List.length_append]
        omega
      rcases ih (sched ++ scanNew jobs (namesOf sched)) hle' hmem' hnd' htopo'
        with ⟨out, hout, hm, hn2, ht2, hl2, t, hext⟩
      refine ⟨out, by rw [hstep]; exact hout, hm, hn2, ht2, hl2,
        scanNew jobs (namesOf sched) ++ t, by rw [hext, List.append_assoc]⟩
    · refine ⟨sched, ?_, hmem, hnd, htopo, by omega, [], by simp⟩
      rw [schedLoop]
      exact dif_neg h1

lemma schedLoop_stop (jobs sched : List ReadyJob) (h1 : sched.length < jobs.length)
    (h2 : (scanNew jobs (namesOf sched)).isEmpty = true) :
    schedLoop jobs sched = .error (cycle_error (namesOf sched) jobs) := by
  rw [schedLoop, dif_pos h1]
  show (if _h : (scanNew jobs (namesOf sched)).isEmpty = true
        then Except.error (cycle_error (namesOf sched) jobs)
        else schedLoop jobs (sched ++ scanNew jobs (namesOf sched))) = _
  rw [dif_pos h2]

lemma schedLoop_step (jobs sched : List ReadyJob) (h1 : sched.length < jobs.length)
    (h2 : (scanNew jobs (namesOf sched)).isEmpty = false) :
    schedLoop jobs sched = schedLoop jobs (sched ++ scanNew jobs (namesOf sched)) := by
  rw [schedLoop, dif_pos h1]
  show (if _h : (scanNew jobs (namesOf sched)).isEmpty = true
        then Except.error (cycle_error (namesOf sched) jobs)
        else schedLoop jobs (sched ++ scanNew jobs (namesOf sched))) = _
  rw [dif_neg (by rw [h2]; exact Bool.false_ne_true)]

lemma schedLoop_done (jobs sched : List ReadyJob) (h1 : ¬ sched.length < jobs.length) :
    schedLoop jobs sched = .ok sched := by
  rw [schedLoop]
  exact dif_neg h1

lemma schedFix_stop (jobs sched : List ReadyJob) (h1 : sched.length < jobs.length)
    (h2 : (scanNew jobs (namesOf sched)).isEmpty = true) :
    schedFix jobs sched = sched := by
  rw [schedFix, dif_pos h1]
  show (if _h : (scanNew jobs (namesOf sched)).isEmpty = true
        then sched
        else schedFix jobs (sched ++ scanNew jobs (namesOf sched))) = _
  rw [dif_pos h2]

lemma schedFix_step (jobs sched : List ReadyJob) (h1 : sched.length < jobs.length)
    (h2 : (scanNew jobs (namesOf sched)).isEmpty = false) :
    schedFix jobs sched = schedFix jobs (sched ++ scanNew jobs (namesOf sched)) := by
  rw [schedFix, dif_pos h1]
  show (if _h : (scanNew jobs (namesOf sched)).isEmpty = true
        then sched
        else schedFix jobs (sched ++ scanNew jobs (namesOf sched))) = _
  rw [dif_neg (by rw [h2]; exact Bool.false_ne_true)]

lemma schedLoop_error_msg (jobs : List ReadyJob) :
    ∀ (n : Nat) (sched : List ReadyJob), jobs.length - sched.length ≤ n →
    ∀ e, schedLoop jobs sched = .error e →
    e = cycle_error (namesOf (schedFix jobs sched)) jobs := by
  intro n
  induction n with
  | zero =>
    intro sched hle e h
    have h1 : ¬ sched.length < jobs.length := by omega
    rw [schedLoop_done jobs sched h1] at h
    exact absurd h (by simp)
  | succ n ih =>
    intro sched hle e h
    by_cases h1 : sched.length < jobs.length
    · cases h2 : (scanNew jobs (namesOf sched)).isEmpty with
      | true =>
        rw [schedLoop_stop jobs sched h1 h2] at h
        rw [schedFix_stop jobs sched h1 h2]
        exact (Except.error.injEq _ _ ▸ h).symm
      | false =>
        have hne : scanNew jobs (namesOf sched) ≠ [] := by
          intro hnil
          rw [hnil] at h2
          simp at h2
        have hpos : 0 < (scanNew jobs (namesOf sched)).length := List.length_pos.mpr hne
        rw [schedLoop_step jobs sched h1 h2] at h
        rw [schedFix_step jobs sched h1 h2]
        refine ih (sched ++ scanNew jobs (namesOf sched)) ?_ e h
        simp only [List.length_append]
        omega
    · rw [schedLoop_done jobs sched h1] at h
      exact absurd h (by simp)

lemma run_queue_stops_at_error (root : String) (homeDir : Option String)
    (username : String) (dirFiles : String → List String)
    (procStatus : String → Option Int) (bad : ReadyJob) (post : List ReadyJob)
    (E : String)
    (hbad : runJob bad root homeDir username dirFiles procStatus = .error E) :
    ∀ (pre : List ReadyJob) (tr : List String),
      (∀ j ∈ pre, runJob j root homeDir username dirFiles procStatus = .ok ()) →
      run_queue root homeDir username dirFiles procStatus (pre ++ bad :: post) tr
        = (tr ++ pre.map (fun j => j.name) ++ [bad.name], .error E) := by
  intro pre
  induction pre with
  | nil =>
    intro tr _
    simp only [List.nil_append, run_queue, hbad, List.map_nil, List.append_nil]
  | cons j rest ih =>
    intro tr hpre
    have hj : runJob j root homeDir username dirFiles procStatus = .ok () :=
      hpre j (List.mem_cons_self j rest)
    simp only [List.cons_append, run_queue, hj, List.append_eq]
    rw [ih (tr ++ [j.name]) (fun x hx => hpre x (List.mem_cons_of_mem j hx))]
    simp [List.append_assoc]

/-- C1: the spec claims variable resolution is memoized per run (each asked
name resolved at most once, later jobs reusing the cached value).  The code
checks the memo map for the raw asked name but inserts under the stripped
key, so a secure-suffixed name is never found in the cache: with two jobs
both asking `TOKEN_SECURE` under an interactive-only configuration, both
prompt answers are consumed (the source chain runs twice) and the second
answer overwrites the first.  The same run with the plain name `TOKEN` is
memoized as claimed: only the first answer is consumed. -/
theorem C1_memoization_bug_eval :
    query_vars [askSecureA, askSecureB] cfgInteractive (fun _ => none) ["alpha", "beta"]
      = (.ok [("TOKEN", "beta")], [])
    ∧ query_vars [askPlainA, askPlainB] cfgInteractive (fun _ => none) ["alpha", "beta"]
      = (.ok [("TOKEN", "alpha")], ["beta"]) :=
  ⟨rfl, rfl⟩

/-- C2: for every job set with distinct job names (the spec makes the name a
unique identifier) whose dependency names all refer to existing jobs and
whose dependency graph is acyclic (witnessed by a rank function decreasing
along dependency edges), `schedule_specs` succeeds and returns a permutation
of the input in which every job appears strictly after all of its
dependencies, starting with the dependency-free jobs in input order.  The
output is a deterministic function of the input order because the embedding
is a pure function of the input list, mirroring the source's repeated
input-order scans. -/
theorem C2_scheduler_correct :
    ∀ (jobs : List ReadyJob) (rank : String → Nat),
      (jobs.map (fun j => j.name)).Nodup →
      (∀ j ∈ jobs, ∀ d ∈ j.depends, d ∈ jobs.map (fun j => j.name)) →
      (∀ j ∈ jobs, ∀ d ∈ j.depends, rank d < rank j.name) →
      ∃ out, schedule_specs jobs = .ok out
        ∧ out.Perm jobs
        ∧ schedOrderOK out
        ∧ (∃ rest, out = jobs.filter (fun j => j.depends.isEmpty) ++ rest) := by
  intro jobs rank hn hd ha
  have hmem0 : ∀ j ∈ jobs.filter (fun j => j.depends.isEmpty), j ∈ jobs := by
    intro j hj
    exact List.mem_of_mem_filter hj
  have hnd0 : (namesOf (jobs.filter (fun j => j.depends.isEmpty))).Nodup := by
    have hsub : List.Sublist
        ((jobs.filter (fun j => j.depends.isEmpty)).map (fun j => j.name))
        (jobs.map (fun j => j.name)) :=
      (List.filter_sublist jobs).map (fun j => j.name)
    exact hsub.nodup hn
  have htopo0 : schedOrderOK (jobs.filter (fun j => j.depends.isEmpty)) := by
    intro i h d hdi
    have hmemi := List.get_mem (jobs.filter (fun j => j.depends.isEmpty)) i h
    have := List.of_mem_filter hmemi
    rw [List.isEmpty_iff.mp this] at hdi
    cases hdi
  rcases schedLoop_ok_of_acyclic jobs rank hn hd ha jobs.length
      (jobs.filter (fun j => j.depends.isEmpty)) (by omega) hmem0 hnd0 htopo0
    with ⟨out, hout, hm, hn2, ht2, hl2, t, hext⟩
  have houtnd : out.Nodup := hn2.of_map
  have hsubp : out.Subperm jobs := List.Nodup.subperm houtnd hm
  have hperm : out.Perm jobs := hsubp.perm_of_length_le hl2
  exact ⟨out, hout, hperm, ht2, t, hext⟩

/-- Witness for C2 at the three-job chain base ← mid ← top. -/
theorem C2_witness :
    ∃ out, schedule_specs [demoBase, demoMid, demoTop] = .ok out
      ∧ out.Perm [demoBase, demoMid, demoTop]
      ∧ schedOrderOK out
      ∧ (∃ rest, out = [demoBase, demoMid, demoTop].filter (fun j => j.depends.isEmpty) ++ rest) :=
  C2_scheduler_correct [demoBase, demoMid, demoTop] demoRank (by decide) (by decide)
    (by decide)

/-- C3: the spec claims `ensure_executable` adds execute permission without
altering other permission bits.  The code ORs the mode with the decimal
literal `100` = octal `0o144`: on a non-executable file with mode `0o600`
the result is `0o744`, which also sets the group-read and other-read bits
(`0o044`), so bits outside the execute mask `0o111` change.  The no-op on an
already-executable file (mode `0o744`) does hold. -/
theorem C3_exec_mode_eval :
    ensure_executable_mode 0o744 = 0o744
    ∧ ensure_executable_mode 0o600 = 0o744
    ∧ (ensure_executable_mode 0o600 ^^^ 0o600) &&& 0o666 ≠ 0 := by
  refine ⟨by decide, by decide, by decide⟩

/-- C4: `query_single_var` tries the sources in the fixed priority order
(empty-override, process environment if permitted, command-line pairs, file
pairs, interactive prompt if enabled) and returns the first supplied value,
where a supplied empty string counts (the value `v` below ranges over all
strings, `""` included); with force-empty-vars enabled the result is `""`
regardless of every other source; when no source supplies a value the
"Cound not resolve var" error names the variable. -/
theorem C4_resolver_priority :
    ∀ (name : String) (cfg : Config) (osEnv : String → Option String) (inputs : List String),
    (cfg.empty_vars = true →
      query_single_var name cfg osEnv inputs
        = (.ok ((secure_name_check name).1, ""), inputs)) ∧
    (cfg.empty_vars = false → ∀ v,
      try_var_from_env (secure_name_check name).1 cfg osEnv = some v →
      query_single_var name cfg osEnv inputs
        = (.ok ((secure_name_check name).1, v), inputs)) ∧
    (cfg.empty_vars = false →
      try_var_from_env (secure_name_check name).1 cfg osEnv = none → ∀ v,
      try_var_from_cmd (secure_name_check name).1 cfg = some v →
      query_single_var name cfg osEnv inputs
        = (.ok ((secure_name_check name).1, v), inputs)) ∧
    (cfg.empty_vars = false →
      try_var_from_env (secure_name_check name).1 cfg osEnv = none →
      try_var_from_cmd (secure_name_check name).1 cfg = none → ∀ v,
      try_var_from_askfile (secure_name_check name).1 cfg = some v →
      query_single_var name cfg osEnv inputs
        = (.ok ((secure_name_check name).1, v), inputs)) ∧
    (cfg.empty_vars = false →
      try_var_from_env (secure_name_check name).1 cfg osEnv = none →
      try_var_from_cmd (secure_name_check name).1 cfg = none →
      try_var_from_askfile (secure_name_check name).1 cfg = none →
      cfg.interactive = true → ∀ i rest, inputs = i :: rest →
      query_single_var name cfg osEnv inputs
        = (.ok ((secure_name_check name).1, i), rest)) ∧
    (cfg.empty_vars = false →
      try_var_from_env (secure_name_check name).1 cfg osEnv = none →
      try_var_from_cmd (secure_name_check name).1 cfg = none →
      try_var_from_askfile (secure_name_check name).1 cfg = none → ∀ rest,
      try_ask_user_for_var (secure_name_check name).1 cfg (secure_name_check name).2 inputs
        = (none, rest) →
      query_single_var name cfg osEnv inputs
        = (.error ("Cound not resolve var: " ++ (secure_name_check name).1), rest)) := by
  intro name cfg osEnv inputs
  refine ⟨?_, ?_, ?_, ?_, ?_, ?_⟩
  · intro h
    simp [query_single_var, try_empty_var, h]
  · intro h v hv
    simp [query_single_var, try_empty_var, h, hv]
  · intro h he v hv
    simp [query_single_var, try_empty_var, h, he, hv]
  · intro h he hc v hv
    simp [query_single_var, try_empty_var, h, he, hc, hv]
  · intro h he hc hf hi i rest hin
    simp [query_single_var, try_empty_var, h, he, hc, hf, try_ask_user_for_var, hi, hin]
  · intro h he hc hf rest hask
    simp [query_single_var, try_empty_var, h, he, hc, hf, hask]

/-- Witness for C4: with force-empty-vars the resolved value is the empty string. -/
theorem C4_witness :
    query_single_var "API_KEY" cfgForceEmpty (fun _ => none) []
      = (.ok ("API_KEY", ""), []) :=
  (C4_resolver_priority "API_KEY" cfgForceEmpty (fun _ => none) []).1 rfl

/-- C5: whenever scheduling fails, the error is exactly the "Unschedulable
jobs" message listing, in input order, every job whose name the fixed-point
expansion (`schedFix`, the same scan iteration the loop runs) never
scheduled; for the two-job cycle A↔B the listed set is exactly {A, B}, and a
job with an unknown dependency name fails through the same path. -/
theorem C5_unschedulable_error :
    (∀ (jobs : List ReadyJob) (e : String),
      schedule_specs jobs = .error e →
      e = cycle_error
            (namesOf (schedFix jobs (jobs.filter (fun j => j.depends.isEmpty)))) jobs)
    ∧ schedule_specs [cycA, cycB] = .error "Unschedulable jobs: A, B"
    ∧ schedule_specs [ghostJob] = .error "Unschedulable jobs: C" := by
  refine ⟨?_, ?_, ?_⟩
  · intro jobs e h
    exact schedLoop_error_msg jobs jobs.length
      (jobs.filter (fun j => j.depends.isEmpty)) (by omega) e h
  · rw [schedule_specs, schedLoop]
    simp [cycA, cycB, scanNew, namesOf, cycle_error]
    rfl
  · rw [schedule_specs, schedLoop]
    simp [ghostJob, scanNew, namesOf, cycle_error]
    rfl

/-- Witness for C5 at the two-job cycle. -/
theorem C5_witness :
    ("Unschedulable jobs: A, B" : String)
      = cycle_error
          (namesOf (schedFix [cycA, cycB]
            ([cycA, cycB].filter (fun j => j.depends.isEmpty)))) [cycA, cycB] :=
  C5_unschedulable_error.1 [cycA, cycB] "Unschedulable jobs: A, B"
    C5_unschedulable_error.2.1

/-- C6 counterexample: the claim says exactly the trailing `_SECURE` suffix
is stripped and the suffix never appears in the resolved key.  The source
uses `replace`, which removes every occurrence: `TOKEN_SECURE_SECURE`
resolves to key `TOKEN`, not `TOKEN_SECURE`; and for
`_SECUR_SECUREE_SECURE` the removal splices a fresh `_SECURE` into the
resolved key. -/
theorem C6_counterexample :
    secure_name_check "TOKEN_SECURE_SECURE" = ("TOKEN", true)
    ∧ ("TOKEN" : String) ≠ "TOKEN_SECURE"
    ∧ (secure_name_check "_SECUR_SECUREE_SECURE").1 = "_SECURE"
    ∧ SECURE_SUFFIX.toList.isSuffixOf (secure_name_check "_SECUR_SECUREE_SECURE").1.toList = true := by
  refine ⟨by rfl, by decide, by rfl, by rfl⟩

/-- C6 amended: for a name ending in `_SECURE`, every non-overlapping
occurrence of `_SECURE` is removed (left to right) before lookup, not just
the trailing one; the key a successful resolution returns is always this
stripped name; a name not ending in the suffix is left unchanged; in the
common single-suffix case `TOKEN_SECURE` yields `TOKEN`. -/
theorem C6_stripping_amended :
    (∀ (name : String) (cfg : Config) (osEnv : String → Option String)
       (inputs : List String) (k v : String) (rest : List String),
      query_single_var name cfg osEnv inputs = (.ok (k, v), rest) →
      k = (secure_name_check name).1) ∧
    (∀ name : String, SECURE_SUFFIX.toList.isSuffixOf name.toList = true →
      (secure_name_check name).1 = rustRemoveSecure name) ∧
    (∀ name : String, SECURE_SUFFIX.toList.isSuffixOf name.toList = false →
      (secure_name_check name).1 = name) ∧
    secure_name_check "TOKEN_SECURE" = ("TOKEN", true) := by
  refine ⟨?_, ?_, ?_, by rfl⟩
  · intro name cfg osEnv inputs k v rest h
    simp only [query_single_var] at h
    split at h
    · simp at h
      exact h.1.1.symm
    · split at h
      · simp at h
        exact h.1.1.symm
      · split at h
        · simp at h
          exact h.1.1.symm
        · split at h
          · simp at h
            exact h.1.1.symm
          · split at h
            · simp at h
              exact h.1.1.symm
            · simp at h
  · intro name h
    simp at h
    simp [secure_name_check, h]
  · intro name h
    simp at h
    simp [secure_name_check, h]

/-- Witness for C6: the key resolved for TOKEN_SECURE is the stripped name. -/
theorem C6_witness :
    ("TOKEN" : String) = (secure_name_check "TOKEN_SECURE").1 :=
  C6_stripping_amended.1 "TOKEN_SECURE" cfgForceEmpty (fun _ => none) [] "TOKEN" "" []
    (by rfl)

/-- C7 counterexample: the claim says every non-alphanumeric character of a
declared env key is replaced by an underscore, but `encode_key` only
replaces hyphens and spaces: `a.b` becomes `A.B`, not `A_B`. -/
theorem C7_counterexample :
    encode_key "a.b" = "A.B" ∧ ("A.B" : String) ≠ "A_B" := by
  refine ⟨by rfl, by decide⟩

/-- C7 amended: declared env keys reach the ResolvedJob env under
`encode_key`, which uppercases and replaces exactly hyphens and spaces with
underscores, leaving other characters (alphanumeric or not) unchanged: the
key's length is preserved, no hyphen or space survives, and each declared
key is present in the built env under its encoded form. -/
theorem C7_encode_key_amended :
    (∀ (spec : JobSpec) (answers : EnvMap) (job : ReadyJob),
      fill_asked_vars spec answers = .ok job →
      ∀ p ∈ spec.provided_env, envContains job.env (encode_key p.1) = true) ∧
    (∀ s : String, (encode_key s).toList.length = s.toList.length) ∧
    (∀ (s : String) (c : Char), c ∈ (encode_key s).toList → c ≠ '-' ∧ c ≠ ' ') ∧
    encode_key "path-to db" = "PATH_TO_DB" := by
  refine ⟨?_, ?_, ?_, by rfl⟩
  · intro spec answers job h p hp
    unfold fill_asked_vars at h
    cases hgo : fill_asked_go answers spec.ask_for_vars [] with
    | error e => rw [hgo] at h; exact absurd h (by simp)
    | ok m =>
      rw [hgo] at h
      simp at h
      rw [← h]
      exact envContains_foldl_encode_mem spec.provided_env p hp m
  · intro s
    simp [encode_key]
  · intro s c hc
    have : (encode_key s).toList
        = s.toList.map (fun c =>
            let u := c.toUpper
            if u == '-' || u == ' ' then '_' else u) := rfl
    rw [this] at hc
    rcases List.mem_map.mp hc with ⟨a, ha, hEq⟩
    by_cases hu : (a.toUpper == '-' || a.toUpper == ' ') = true
    · simp only [hu, if_true] at hEq
      rw [← hEq]
      refine ⟨by decide, by decide⟩
    · have hu' : (a.toUpper == '-' || a.toUpper == ' ') = false := by
        simpa using hu
      simp only [hu', if_false] at hEq
      rw [← hEq]
      simp at hu'
      exact ⟨hu'.1, hu'.2⟩

/-- Witness for C7 at a one-entry declared environment. -/
theorem C7_witness : envContains cJob7.env (encode_key "token") = true :=
  C7_encode_key_amended.1 cSpec7 [] cJob7 (by rfl) ("token", "x") (by simp [cSpec7])

/-- C8 counterexample: the claim says the missing-runner failure names the
job.  Running the queue alpha, beta, gamma where beta's directory has no
`run.sh` and no `run.*` match stops at beta with the error exactly
"No runner found", which does not contain the job name "beta"; gamma is
never attempted. -/
theorem C8_counterexample :
    run_queue "/r" (some "/home/u") "u" fsC8 (fun _ => some 0) [jAlpha, jBeta, jGamma] []
      = (["alpha", "beta"], .error "No runner found")
    ∧ strContainsSub "No runner found" "beta" = false := by
  refine ⟨by rfl, by decide⟩

/-- C8 amended: for a job whose directory has neither `run.sh` nor any
`run.*` match, and whose preparation script (if any) exits successfully,
execution fails with the error "No runner found" (which does not include
the job's name) and no subsequently queued job runs: the jobs attempted are
exactly the preceding ones and the failing job. -/
theorem C8_no_runner_amended :
    ∀ (pre post : List ReadyJob) (bad : ReadyJob) (root hdir username : String)
      (dirFiles : String → List String) (procStatus : String → Option Int),
      (∀ j ∈ pre, runJob j root (some hdir) username dirFiles procStatus = .ok ()) →
      (bad.has_deps_script = true →
        procStatus (root ++ "/" ++ bad.name ++ "/" ++ DEPS_SCRIPT) = some 0) →
      (dirFiles bad.name).contains "run.sh" = false →
      (dirFiles bad.name).filter matchesRunStar = [] →
      run_queue root (some hdir) username dirFiles procStatus (pre ++ bad :: post) []
        = (pre.map (fun j => j.name) ++ [bad.name], .error "No runner found") := by
  intro pre post bad root hdir username dirFiles procStatus hpre hdeps hsh hglob
  have hfind : find_runner (dirFiles bad.name) = .error "No runner found" := by
    unfold find_runner
    rw [if_neg (by rw [hsh]; exact Bool.false_ne_true)]
    rw [hglob]
    rfl
  have hbad : runJob bad root (some hdir) username dirFiles procStatus
      = .error "No runner found" := by
    unfold runJob
    cases hds : bad.has_deps_script with
    | false =>
      simp only [create_proc_env, hds, Bool.false_eq_true, if_false, hfind]
    | true =>
      have hps := hdeps hds
      simp only [create_proc_env, hds, if_true, run_process, hps, hfind]
  have := run_queue_stops_at_error root (some hdir) username dirFiles procStatus bad post
    "No runner found" hbad pre [] hpre
  simpa using this

/-- Witness for C8 at the alpha, beta, gamma queue. -/
theorem C8_witness :
    run_queue "/r" (some "/home/u") "u" fsC8 (fun _ => some 0)
        ([jAlpha] ++ jBeta :: [jGamma]) []
      = ([jAlpha].map (fun j => j.name) ++ [jBeta.name], .error "No runner found") :=
  C8_no_runner_amended [jAlpha] [jGamma] jBeta "/r" "/home/u" "u" fsC8 (fun _ => some 0)
    (by intro j hj; simp at hj; subst hj; rfl) (by intro h; cases h) (by rfl) (by rfl)

/-- C9 counterexample: the claim says the dry-run report labels jobs with a
1-based zero-padded index, the first being 001.  `report_jobs` passes the
0-based `enumerate` position straight to `report`, so the first job is
labelled 000. -/
theorem C9_counterexample :
    report_jobs [demoJob] id id = ["Would run job 000: base"]
    ∧ ("Would run job 001".toList.isPrefixOf "Would run job 000: base".toList) = false := by
  refine ⟨by rfl, by decide⟩

/-- C9 amended: the dry-run report labels each job with its 0-based,
width-3 zero-padded position in schedule order: the line at position `i`
starts with "Would run job ", the padded index `i`, and ": ". -/
theorem C9_report_zero_based :
    ∀ (jobs : List ReadyJob) (jf inf : String → String) (i : Nat) (s : String),
      (report_jobs jobs jf inf).get? i = some s →
      ("Would run job " ++ fmt3 i ++ ": ").toList.isPrefixOf s.toList = true := by
  intro jobs jf inf i s h
  unfold report_jobs at h
  rw [List.get?_map, List.get?_enum] at h
  cases hj : jobs.get? i with
  | none => rw [hj] at h; simp at h
  | some job =>
    rw [hj] at h
    simp at h
    rw [← h]
    have hsplit : report job i jf inf
        = ("Would run job " ++ fmt3 i ++ ": ") ++
          (jf job.name
            ++ String.join (job.depends.map (fun d =>
                 "\n" ++ inf "  Depends on: " ++ inf d))
            ++ (if job.has_deps_script then "\n" ++ inf "  Deps.sh: yes" else "")
            ++ String.join (job.env.map (fun p =>
                 "\n" ++ inf "  Env: " ++ inf p.1 ++ inf " -> " ++ inf p.2))) := by
      unfold report
      simp [String.append_assoc]
    rw [hsplit]
    exact strPrefix_append _ _

/-- Witness for C9 at a one-job schedule. -/
theorem C9_witness :
    ("Would run job " ++ fmt3 0 ++ ": ").toList.isPrefixOf
      "Would run job 000: base".toList = true :=
  C9_report_zero_based [demoJob] id id 0 "Would run job 000: base" (by rfl)

/-- C10: in `fill_asked_vars` the job's declared environment is drained into
the map after the resolved ask variables, so when a declared key's encoded
form collides with a resolved ask key, the declared literal value is what
the final env holds under that key (the resolved value is silently
overwritten).  The uniqueness hypothesis pins down which declared entry is
last for that key; with a single declared entry it is trivial. -/
theorem C10_provided_env_overwrites :
    ∀ (spec : JobSpec) (answers : EnvMap) (job : ReadyJob) (p : String × String),
      fill_asked_vars spec answers = .ok job →
      p ∈ spec.provided_env →
      (∀ q ∈ spec.provided_env, encode_key q.1 = encode_key p.1 → q = p) →
      envGet job.env (encode_key p.1) = some p.2 := by
  intro spec answers job p h hp hu
  unfold fill_asked_vars at h
  cases hgo : fill_asked_go answers spec.ask_for_vars [] with
  | error e => rw [hgo] at h; exact absurd h (by simp)
  | ok m =>
    rw [hgo] at h
    simp at h
    rw [← h]
    exact envGet_foldl_encode_of_unique spec.provided_env p hp hu m

/-- Witness for C10: the ask variable TOKEN resolves to "resolved", but the
declared entry ("token", "literal") encodes to the same key and wins. -/
theorem C10_witness : envGet cJob10.env (encode_key "token") = some "literal" :=
  C10_provided_env_overwrites cSpec10 cAns10 cJob10 ("token", "literal") (by rfl)
    (by simp [cSpec10]) (by simp [cSpec10])

end Devmaker
